import Mathlib

/-!
Verification of the conversation storage and retention subsystem of a
Cloudflare Workers agent service.  The source of truth is the Durable
Object class `AgentContainer` (SQLite-backed tables `conversations` and
`messages`) together with the Hono route handlers, embedded shallowly:
each SQL statement becomes an explicit list transformation, JavaScript
`JSON.stringify` / `JSON.parse` become an executable JSON codec, and the
wall clock `Date.now()` becomes an explicit `now` argument.  Fallible
storage statements are modelled by an explicit fault argument naming
which statement raises, mirroring the try/catch structure of the source.
-/

namespace AgentStore

/-! ## JSON values and the codec used by JSON.stringify / JSON.parse

The store serialises message `content` and conversation `metadata` with
`JSON.stringify` and reads them back with `JSON.parse`.  We model JSON
values as a small inductive (numbers restricted to integers, which covers
every value the service itself writes) and give an executable encoder and
a fuel-based decoder, proved to be a left inverse on encoder output. -/

inductive JsonValue : Type where
  | jnull : JsonValue
  | jbool : Bool → JsonValue
  | jnum : Int → JsonValue
  | jstr : String → JsonValue
  | jarr : List JsonValue → JsonValue
  | jobj : List (String × JsonValue) → JsonValue
deriving Repr

/-- Escape one character as inside a JSON string literal: backslash and
double quote are escaped, every other character is emitted raw. -/
def escChar (c : Char) : List Char :=
  if c = '\\' then ['\\', '\\']
  else if c = '"' then ['\\', '"']
  else [c]

/-- Escape a character list as the body of a JSON string literal. -/
def escapeChars : List Char → List Char
  | [] => []
  | c :: cs => escChar c ++ escapeChars cs

/-- Wrap an escaped character list in double quotes. -/
def quoteChars (cs : List Char) : List Char :=
  '"' :: (escapeChars cs ++ ['"'])

/-- Little-endian base-10 digits with explicit fuel, so that the kernel
can evaluate it (the Mathlib `Nat.digits` is well-founded recursion). -/
def natDigitsAux : Nat → Nat → List Nat
  | _, 0 => []
  | 0, _ + 1 => []
  | fuel + 1, n + 1 => (n + 1) % 10 :: natDigitsAux fuel ((n + 1) / 10)

/-- Little-endian base-10 digits of a natural number. -/
def natDigits (n : Nat) : List Nat := natDigitsAux n n

/-- Decimal digits of a natural number, most significant first. -/
def natChars (n : Nat) : List Char :=
  if n = 0 then ['0']
  else ((natDigits n).reverse.map Nat.digitChar)

/-- Decimal rendering of an integer, with a leading minus sign when
negative. -/
def intChars (i : Int) : List Char :=
  if i < 0 then '-' :: natChars i.natAbs else natChars i.natAbs

mutual

/-- Render a JSON value to characters, exactly as `JSON.stringify` does on
integer-numbered values (no whitespace, fields in order). -/
def stringifyV : JsonValue → List Char
  | .jnull => ['n', 'u', 'l', 'l']
  | .jbool true => ['t', 'r', 'u', 'e']
  | .jbool false => ['f', 'a', 'l', 's', 'e']
  | .jnum i => intChars i
  | .jstr s => quoteChars s.data
  | .jarr [] => ['[', ']']
  | .jarr (v :: vs) => '[' :: (stringifyV v ++ stringifyElems vs)
  | .jobj [] => ['{', '}']
  | .jobj (f :: fs) => '{' :: (stringifyField f ++ stringifyFields fs)

/-- Render the remaining elements of a JSON array, each preceded by a
comma, closed by a bracket. -/
def stringifyElems : List JsonValue → List Char
  | [] => [']']
  | v :: vs => ',' :: (stringifyV v ++ stringifyElems vs)

/-- Render one object field as a quoted key, a colon and the value. -/
def stringifyField : String × JsonValue → List Char
  | (k, v) => quoteChars k.data ++ (':' :: stringifyV v)

/-- Render the remaining fields of a JSON object, each preceded by a
comma, closed by a brace. -/
def stringifyFields : List (String × JsonValue) → List Char
  | [] => ['}']
  | f :: fs => ',' :: (stringifyField f ++ stringifyFields fs)

end

/-- The string produced by `JSON.stringify` on a modelled value. -/
def jsonStringify (v : JsonValue) : String :=
  String.mk (stringifyV v)

/-- Parse the body of a JSON string literal after the opening quote,
returning the unescaped characters and the tail after the closing
quote. -/
def parseStringBody : List Char → Option (List Char × List Char)
  | [] => none
  | c :: rest =>
    if c = '"' then some ([], rest)
    else if c = '\\' then
      match rest with
      | [] => none
      | c2 :: rest2 => (parseStringBody rest2).map (fun sr => (c2 :: sr.1, sr.2))
    else (parseStringBody rest).map (fun sr => (c :: sr.1, sr.2))

/-- Parse a nonempty run of decimal digits as a natural number, returning
the tail after the digits. -/
def parseNatNum (cs : List Char) : Option (Nat × List Char) :=
  if (cs.takeWhile Char.isDigit).isEmpty then none
  else some ((cs.takeWhile Char.isDigit).foldl (fun acc c => acc * 10 + (c.toNat - 48)) 0,
             cs.dropWhile Char.isDigit)

/-- Parse a JSON number (an optional minus sign and decimal digits). -/
def parseNum (cs : List Char) : Option (Int × List Char) :=
  if cs.head? = some '-' then
    (parseNatNum cs.tail).map (fun nr => (-(nr.1 : Int), nr.2))
  else (parseNatNum cs).map (fun nr => ((nr.1 : Int), nr.2))

/-- Match an expected literal character sequence at the head of the
input, returning the given value and the tail on success. -/
def expectLit (lit : List Char) (cs : List Char) (v : JsonValue) :
    Option (JsonValue × List Char) :=
  if cs.take lit.length = lit then some (v, cs.drop lit.length) else none

mutual

/-- Fuel-based JSON parser for one value, consuming a prefix of the input
and returning the unconsumed tail.  It accepts exactly the whitespace-free
renderings produced by `stringifyV`. -/
def parseV : Nat → List Char → Option (JsonValue × List Char)
  | 0, _ => none
  | _ + 1, [] => none
  | fuel + 1, c :: cs =>
    if c = 'n' then expectLit ['u', 'l', 'l'] cs .jnull
    else if c = 't' then expectLit ['r', 'u', 'e'] cs (.jbool true)
    else if c = 'f' then expectLit ['a', 'l', 's', 'e'] cs (.jbool false)
    else if c = '"' then
      (parseStringBody cs).map (fun sr => (.jstr (String.mk sr.1), sr.2))
    else if c = '[' then
      if cs.head? = some ']' then some (.jarr [], cs.tail)
      else
        (parseV fuel cs).bind (fun vr =>
          (parseElems fuel vr.2).map (fun er => (.jarr (vr.1 :: er.1), er.2)))
    else if c = '{' then
      if cs.head? = some '}' then some (.jobj [], cs.tail)
      else
        (parseField fuel cs).bind (fun fr =>
          (parseFields fuel fr.2).map (fun gr => (.jobj (fr.1 :: gr.1), gr.2)))
    else (parseNum (c :: cs)).map (fun nr => (.jnum nr.1, nr.2))

/-- Parse the continuation of a JSON array: a closing bracket, or a comma
followed by a value and the rest of the array. -/
def parseElems : Nat → List Char → Option (List JsonValue × List Char)
  | 0, _ => none
  | _ + 1, [] => none
  | fuel + 1, c :: cs =>
    if c = ']' then some ([], cs)
    else if c = ',' then
      (parseV fuel cs).bind (fun vr =>
        (parseElems fuel vr.2).map (fun er => (vr.1 :: er.1, er.2)))
    else none

/-- Parse one JSON object field: a quoted key, a colon and a value. -/
def parseField : Nat → List Char → Option ((String × JsonValue) × List Char)
  | 0, _ => none
  | _ + 1, [] => none
  | fuel + 1, c :: cs =>
    if c = '"' then
      (parseStringBody cs).bind (fun kr =>
        if kr.2.head? = some ':' then
          (parseV fuel kr.2.tail).map (fun vr =>
            ((String.mk kr.1, vr.1), vr.2))
        else none)
    else none

/-- Parse the continuation of a JSON object: a closing brace, or a comma
followed by a field and the rest of the object. -/
def parseFields : Nat → List Char → Option (List (String × JsonValue) × List Char)
  | 0, _ => none
  | _ + 1, [] => none
  | fuel + 1, c :: cs =>
    if c = '}' then some ([], cs)
    else if c = ',' then
      (parseField fuel cs).bind (fun fr =>
        (parseFields fuel fr.2).map (fun gr => (fr.1 :: gr.1, gr.2)))
    else none

end

/-- The result of `JSON.parse`: run the fuelled parser with fuel larger
than the input length and require the whole input to be consumed. -/
def jsonParse (s : String) : Option JsonValue :=
  match parseV (s.data.length + 1) s.data with
  | some (v, []) => some v
  | _ => none

/-! ## The conversation store state

One row per table of the Durable Object SQLite schema created by
`initializeDatabase`.  `PRAGMA foreign_keys = ON` together with the
`ON DELETE CASCADE` clause of the `messages` table is embedded directly
into the delete operations: deleting conversation rows also deletes the
message rows referencing them. -/

/-- One row of the `conversations` table. -/
structure ConvRow where
  session_id : String
  account_id : String
  created_at : Int
  last_accessed_at : Int
  metadata : Option String
deriving Repr, DecidableEq

/-- One row of the `messages` table.  `content` holds the serialised
JSON text exactly as stored. -/
structure MsgRow where
  id : Nat
  session_id : String
  timestamp : Int
  role : String
  content : String
deriving Repr, DecidableEq

/-- The SQLite state of one Durable Object storage scope: the two tables
plus the AUTOINCREMENT counter feeding `messages.id`. -/
structure DB where
  conversations : List ConvRow
  messages : List MsgRow
  nextMsgId : Nat
deriving Repr, DecidableEq

/-- The state right after `initializeDatabase` on a fresh scope. -/
def emptyDB : DB := ⟨[], [], 1⟩

/-- One element of the `messages` argument of `storeConversation`:
a role and a structured content value. -/
structure TurnMsg where
  role : String
  content : JsonValue
deriving Repr

/-- The retention threshold constant of the source:
`30 * 24 * 60 * 60 * 1000` milliseconds. -/
def PURGE_THRESHOLD_MS : Int := 30 * 24 * 60 * 60 * 1000

/-! ## storeConversation

The source runs one INSERT ... ON CONFLICT(session_id) DO UPDATE SET
last_accessed_at = ? statement, then one INSERT per message, with no
surrounding transaction.  Statement `0` is the upsert and statement
`i + 1` is the insert of message `i`; the `failAt` argument names the
first statement that raises, `none` meaning none does.  A raised
statement has no effect itself (SQLite statements are atomic) but
earlier statements keep their effects, and the error is rethrown by the
catch block, which the Boolean component reports (`false` = raised). -/

/-- Effect of the conversation upsert statement. -/
def upsertConversation (db : DB) (now : Int) (sessionId accountId : String)
    (msgCount : Nat) : DB :=
  if db.conversations.any (fun c => c.session_id = sessionId) then
    { db with conversations := db.conversations.map (fun c =>
        if c.session_id = sessionId then { c with last_accessed_at := now } else c) }
  else
    { db with conversations := db.conversations ++
        [⟨sessionId, accountId, now, now,
          some (jsonStringify (.jobj [("message_count", .jnum msgCount)]))⟩] }

/-- Effect of one `INSERT INTO messages` statement. -/
def insertMessage (db : DB) (sessionId : String) (now : Int)
    (role content : String) : DB :=
  { db with
    messages := db.messages ++ [⟨db.nextMsgId, sessionId, now, role, content⟩],
    nextMsgId := db.nextMsgId + 1 }

/-- The message-insert loop of `storeConversation`, with a countdown to
the first raising statement (`some 0` = the next statement raises). -/
def insertMessagesF (sessionId : String) (now : Int) :
    List TurnMsg → DB → Option Nat → DB × Bool
  | [], db, _ => (db, true)
  | m :: ms, db, fault =>
    match fault with
    | some 0 => (db, false)
    | some (k + 1) =>
      insertMessagesF sessionId now ms
        (insertMessage db sessionId now m.role (jsonStringify m.content))
        (some k)
    | none =>
      insertMessagesF sessionId now ms
        (insertMessage db sessionId now m.role (jsonStringify m.content))
        none

/-- `storeConversation` with an explicit fault point: the upsert followed
by the message inserts; `false` in the result means the call threw. -/
def storeConversationF (db : DB) (now : Int) (sessionId accountId : String)
    (messages : List TurnMsg) (failAt : Option Nat) : DB × Bool :=
  match failAt with
  | some 0 => (db, false)
  | _ =>
    insertMessagesF sessionId now messages
      (upsertConversation db now sessionId accountId messages.length)
      (failAt.map (fun k => k - 1))

/-- `storeConversation` on the fault-free path. -/
def storeConversation (db : DB) (now : Int) (sessionId accountId : String)
    (messages : List TurnMsg) : DB :=
  (storeConversationF db now sessionId accountId messages none).1

/-! ## purgeOldConversations and deleteConversation -/

/-- The `{deleted, errors}` record returned by the purge engine. -/
structure PurgeResult where
  deleted : Nat
  errors : Nat
deriving Repr, DecidableEq

/-- The purge engine body for an arbitrary threshold: select the
session ids with `last_accessed_at < now - threshold`, delete those
conversation rows (messages cascade), and report the selected count.
The whole body sits in a try/catch; `fault = true` means one of the two
statements raised, in which case the state is unchanged (each statement
is atomic) and the catch returns `{deleted := 0, errors := 1}`. -/
def purgeWithF (threshold : Int) (db : DB) (now : Int) (fault : Bool) :
    DB × PurgeResult :=
  if fault then (db, ⟨0, 1⟩)
  else
    let cutoff := now - threshold
    let toDelete := (db.conversations.filter
      (fun c => decide (c.last_accessed_at < cutoff))).map (fun c => c.session_id)
    ({ db with
       conversations := db.conversations.filter
         (fun c => !decide (c.last_accessed_at < cutoff)),
       messages := db.messages.filter
         (fun m => !toDelete.contains m.session_id) },
     ⟨toDelete.length, 0⟩)

/-- `purgeOldConversations` as in the source, at the fixed 30-day
threshold. -/
def purgeOldConversations (db : DB) (now : Int) (fault : Bool) :
    DB × PurgeResult :=
  purgeWithF PURGE_THRESHOLD_MS db now fault

/-- `deleteConversation`: delete the conversation row with the given
session id (messages cascade).  On a raised statement the catch block
returns `false` and the state is unchanged; otherwise `true`, also when
no row matched. -/
def deleteConversationF (db : DB) (sessionId : String) (fault : Bool) :
    DB × Bool :=
  if fault then (db, false)
  else
    let delSids := (db.conversations.filter
      (fun c => c.session_id = sessionId)).map (fun c => c.session_id)
    ({ db with
       conversations := db.conversations.filter
         (fun c => !decide (c.session_id = sessionId)),
       messages := db.messages.filter
         (fun m => !delSids.contains m.session_id) },
     true)

/-! ## getConversation -/

/-- One element of the `messages` array returned by `getConversation`:
role, parsed content and timestamp. -/
structure MsgOut where
  role : String
  content : JsonValue
  timestamp : Int
deriving Repr

/-- The object returned by `getConversation`: the conversation row
spread into the result with `last_accessed_at` overridden by `now`,
parsed metadata, and the ordered message list. -/
structure ConvOut where
  session_id : String
  account_id : String
  created_at : Int
  last_accessed_at : Int
  metadata : JsonValue
  messages : List MsgOut
deriving Repr

/-- Ordering of message rows by the `ORDER BY timestamp ASC` clause. -/
def msgLe (a b : MsgRow) : Prop := a.timestamp ≤ b.timestamp

instance : DecidableRel msgLe := fun a b =>
  inferInstanceAs (Decidable (a.timestamp ≤ b.timestamp))

instance : IsTotal MsgRow msgLe := ⟨fun a b => Int.le_total a.timestamp b.timestamp⟩

instance : IsTrans MsgRow msgLe := ⟨fun _ _ _ h h2 => Int.le_trans h h2⟩

/-- The row order produced by `SELECT ... ORDER BY timestamp ASC`. -/
def sortMsgs (l : List MsgRow) : List MsgRow := List.insertionSort msgLe l

/-- `JSON.parse` of one stored message row into the returned shape. -/
def decodeMsg (m : MsgRow) : Option MsgOut :=
  (jsonParse m.content).map (fun v => ⟨m.role, v, m.timestamp⟩)

/-- The `conversation.metadata ? JSON.parse(conversation.metadata) : {}`
expression: a missing or empty (falsy) metadata string becomes the empty
object, anything else is parsed (`none` models a thrown parse error). -/
def decodeMetadata : Option String → Option JsonValue
  | none => some (.jobj [])
  | some s => if s = "" then some (.jobj []) else jsonParse s

/-- `getConversation` with an explicit fault point among its three
statements (`0` = conversation select, `1` = messages select, `2` = the
`last_accessed_at` update).  Any raised statement is caught and `null`
is returned; a parse error thrown while building the result object is
likewise caught, but only after the update statement has run. -/
def getConversationF (db : DB) (now : Int) (sessionId : String)
    (fault : Option (Fin 3)) : DB × Option ConvOut :=
  if fault = some 0 then (db, none)
  else
    match db.conversations.find? (fun c => c.session_id = sessionId) with
    | none => (db, none)
    | some conv =>
      if fault = some 1 then (db, none)
      else
        let msgs := sortMsgs (db.messages.filter
          (fun m => m.session_id = sessionId))
        if fault = some 2 then (db, none)
        else
          let newConvs := db.conversations.map
            (fun c => if c.session_id = sessionId
              then { c with last_accessed_at := now } else c)
          let db1 : DB := { db with conversations := newConvs }
          match decodeMetadata conv.metadata, msgs.mapM decodeMsg with
          | some md, some outs =>
            (db1, some ⟨conv.session_id, conv.account_id, conv.created_at,
                        now, md, outs⟩)
          | _, _ => (db1, none)

/-- `getConversation` on the fault-free path. -/
def getConversation (db : DB) (now : Int) (sessionId : String) :
    DB × Option ConvOut :=
  getConversationF db now sessionId none

/-! ## listConversations -/

/-- One element of the list returned by `listConversations`. -/
structure ConvSummary where
  session_id : String
  created_at : Int
  last_accessed_at : Int
  metadata : JsonValue
deriving Repr

/-- Ordering of conversation rows by `ORDER BY last_accessed_at DESC`. -/
def convGe (a b : ConvRow) : Prop := b.last_accessed_at ≤ a.last_accessed_at

instance : DecidableRel convGe := fun a b =>
  inferInstanceAs (Decidable (b.last_accessed_at ≤ a.last_accessed_at))

instance : IsTotal ConvRow convGe := ⟨fun a b => Int.le_total b.last_accessed_at a.last_accessed_at⟩

instance : IsTrans ConvRow convGe := ⟨fun _ _ _ h h2 => Int.le_trans h2 h⟩

/-- The row order produced by `ORDER BY last_accessed_at DESC`. -/
def sortConvsDesc (l : List ConvRow) : List ConvRow :=
  List.insertionSort convGe l

/-- Shape one conversation row for the listing (`none` models a thrown
metadata parse error). -/
def summarize (c : ConvRow) : Option ConvSummary :=
  (decodeMetadata c.metadata).map
    (fun md => ⟨c.session_id, c.created_at, c.last_accessed_at, md⟩)

/-- `listConversations`: filter to the account, sort descending by
`last_accessed_at`, apply OFFSET then LIMIT, and shape each row.  Any
raised statement or parse error is caught and the empty list returned;
the operation never mutates the state, which the returned first
component makes explicit. -/
def listConversationsF (db : DB) (accountId : String) (limit offset : Nat)
    (fault : Bool) : DB × List ConvSummary :=
  if fault then (db, [])
  else
    let rows := ((sortConvsDesc (db.conversations.filter
      (fun c => c.account_id = accountId))).drop offset).take limit
    match rows.mapM summarize with
    | some out => (db, out)
    | none => (db, [])

/-! ## The /query route handler

`app.post("/query")` resolves the session id, calls the external
generation collaborator, then appends the turn inside its own try/catch
whose catch block only logs, and finally responds with
`{ ...result, session_id }`.  The generation result is given as the
field list of the JSON object the collaborator returned; the fault
argument is passed through to the store call. -/

/-- JavaScript object spread update `{ ...fs, key: v }`: replace the
value in place when the key exists, append otherwise. -/
def setField (fs : List (String × JsonValue)) (key : String) (v : JsonValue) :
    List (String × JsonValue) :=
  if fs.any (fun f => f.1 = key) then
    fs.map (fun f => if f.1 = key then (key, v) else f)
  else fs ++ [(key, v)]

/-- Look up a field of a JSON object field list. -/
def lookupField (fs : List (String × JsonValue)) (key : String) :
    Option JsonValue :=
  (fs.find? (fun f => f.1 = key)).map (fun f => f.2)

/-- The `/query` handler after a successful generation call: store the
two-message turn (storage faults are swallowed) and respond with the
generation result plus the session id. -/
def handleQuery (db : DB) (now : Int) (accountId : String)
    (sessionIdOpt : Option String) (freshId : String) (prompt : String)
    (genResult : List (String × JsonValue)) (storeFault : Option Nat) :
    DB × List (String × JsonValue) :=
  let sessionId := sessionIdOpt.getD freshId
  let msgs : List TurnMsg :=
    [⟨"user", .jstr prompt⟩,
     ⟨"assistant", (lookupField genResult "response").getD .jnull⟩]
  let store := storeConversationF db now sessionId accountId msgs storeFault
  (store.1, setField genResult "session_id" (.jstr sessionId))

/-! ## Well-formedness predicates -/

/-- A stored text column is well formed when it is the serialisation of
the value it parses back to, which holds of everything the service ever
writes. -/
def contentWF (s : String) : Bool :=
  match jsonParse s with
  | some v => jsonStringify v = s
  | none => false

/-- A stored metadata column is well formed when it is absent, empty, or
well-formed JSON text. -/
def metadataWF : Option String → Bool
  | none => true
  | some s => s = "" || contentWF s

/-- Every stored message content is well-formed JSON and every stored
metadata string is well formed, as every write path of the service
guarantees. -/
def WFdb (db : DB) : Prop :=
  (∀ m ∈ db.messages, contentWF m.content = true) ∧
  (∀ c ∈ db.conversations, metadataWF c.metadata = true)

/-- How a returned message mirrors its stored row: same role and
timestamp, and a content value whose serialisation is exactly the stored
text — the original structured form. -/
def MsgMatches (m : MsgRow) (o : MsgOut) : Prop :=
  o.role = m.role ∧ o.timestamp = m.timestamp ∧ jsonStringify o.content = m.content

/-- How a listed summary mirrors its conversation row. -/
def SummMatches (c : ConvRow) (o : ConvSummary) : Prop :=
  o.session_id = c.session_id ∧ o.created_at = c.created_at ∧
    o.last_accessed_at = c.last_accessed_at

/-- A small concrete store used to instantiate the theorems: one
conversation with two messages, as left by one `storeConversation`
call. -/
def sampleDB : DB :=
  { conversations := [⟨"s1", "a1", 100, 100,
      some (jsonStringify (.jobj [("message_count", .jnum 2)]))⟩],
    messages := [⟨1, "s1", 100, "user", jsonStringify (.jstr "Hello")⟩,
                 ⟨2, "s1", 100, "assistant", jsonStringify (.jstr "Hi")⟩],
    nextMsgId := 3 }

/-- The referential integrity enforced by the foreign key: every message
row references an existing conversation row. -/
def noOrphans (db : DB) : Prop :=
  ∀ m ∈ db.messages, ∃ c ∈ db.conversations, c.session_id = m.session_id

instance (db : DB) : Decidable (WFdb db) := by
  unfold WFdb
  exact inferInstance

instance (db : DB) : Decidable (noOrphans db) := by
  unfold noOrphans
  exact inferInstance

/-! ## Fuel measures for the parser correctness proof -/

mutual

/-- Fuel sufficient for `parseV` to parse the rendering of a value. -/
def jfuel : JsonValue → Nat
  | .jnull => 1
  | .jbool _ => 1
  | .jnum _ => 1
  | .jstr _ => 1
  | .jarr vs => jfuelL vs
  | .jobj fs => jfuelF fs

/-- Fuel sufficient for `parseElems` on a rendered element list. -/
def jfuelL : List JsonValue → Nat
  | [] => 1
  | v :: vs => 1 + max (jfuel v) (jfuelL vs)

/-- Fuel sufficient for `parseField` on a rendered field. -/
def jfuelField : String × JsonValue → Nat
  | (_, v) => 1 + jfuel v

/-- Fuel sufficient for `parseFields` on a rendered field list. -/
def jfuelF : List (String × JsonValue) → Nat
  | [] => 1
  | f :: fs => 1 + max (jfuelField f) (jfuelF fs)

end

/-- A tail is a safe continuation after a rendered number when it does
not begin with a decimal digit, so that the greedy digit run stops at
the boundary. -/
def NumBoundary (rest : List Char) : Prop :=
  ∀ c, rest.head? = some c → c.isDigit = false

/-! # Proofs

First the correctness of the JSON codec (the decoder is a left inverse
of the encoder), then the theorems about the store operations. -/

/-! ## Decimal digits -/

theorem natDigitsAux_eq : ∀ fuel n, n ≤ fuel → natDigitsAux fuel n = Nat.digits 10 n := by
  intro fuel
  induction fuel with
  | zero =>
    intro n hn
    interval_cases n
    simp [natDigitsAux]
  | succ f ih =>
    intro n hn
    match n with
    | 0 => simp [natDigitsAux]
    | m + 1 =>
      rw [natDigitsAux, Nat.digits_def' (by norm_num : (1 : ℕ) < 10) (Nat.succ_pos m)]
      rw [ih ((m + 1) / 10) (by omega)]

theorem natDigits_eq (n : Nat) : natDigits n = Nat.digits 10 n :=
  natDigitsAux_eq n n le_rfl

theorem digitChar_toNat {d : Nat} (h : d < 10) : (Nat.digitChar d).toNat = 48 + d := by
  interval_cases d <;> rfl

theorem digitChar_isDigit {d : Nat} (h : d < 10) : (Nat.digitChar d).isDigit = true := by
  interval_cases d <;> rfl

theorem natDigits_lt (n : Nat) : ∀ d ∈ natDigits n, d < 10 := by
  rw [natDigits_eq]
  exact fun d hd => Nat.digits_lt_base (by norm_num) hd

theorem natChars_digits (n : Nat) : ∀ c ∈ natChars n, c.isDigit = true := by
  intro c hc
  unfold natChars at hc
  by_cases h : n = 0
  · simp [h] at hc
    simp [hc]
  · simp only [h, if_false, List.mem_map, List.mem_reverse] at hc
    obtain ⟨d, hd, rfl⟩ := hc
    exact digitChar_isDigit (natDigits_lt n d hd)

theorem natChars_ne_nil (n : Nat) : natChars n ≠ [] := by
  unfold natChars
  by_cases h : n = 0
  · simp [h]
  · simp only [h, if_false, ne_eq, List.map_eq_nil_iff, List.reverse_eq_nil_iff]
    rw [natDigits_eq]
    simpa using Nat.digits_ne_nil_iff_ne_zero.mpr h

theorem foldl_digitChars (l : List Nat) (hl : ∀ d ∈ l, d < 10) (a : Nat) :
    ((l.reverse.map Nat.digitChar).foldl (fun acc c => acc * 10 + (c.toNat - 48)) a)
      = a * 10 ^ l.length + Nat.ofDigits 10 l := by
  induction l generalizing a with
  | nil => simp
  | cons d t ih =>
    have hd : d < 10 := hl d (List.mem_cons_self d t)
    have ht : ∀ x ∈ t, x < 10 := fun x hx => hl x (List.mem_cons_of_mem d hx)
    rw [List.reverse_cons, List.map_append, List.foldl_append]
    rw [ih ht a]
    simp only [List.map_cons, List.map_nil, List.foldl_cons, List.foldl_nil]
    rw [digitChar_toNat hd]
    rw [Nat.ofDigits_cons]
    have : 48 + d - 48 = d := by omega
    rw [this]
    simp only [List.length_cons, pow_succ]
    ring

/-! ## Digit-run parsing -/

theorem takeWhile_append_all {p : Char → Bool} {xs rest : List Char}
    (h : ∀ x ∈ xs, p x = true) (hr : ∀ c, rest.head? = some c → p c = false) :
    (xs ++ rest).takeWhile p = xs ∧ (xs ++ rest).dropWhile p = rest := by
  induction xs with
  | nil =>
    simp only [List.nil_append]
    cases rest with
    | nil => simp
    | cons c t =>
      have := hr c rfl
      constructor
      · rw [List.takeWhile_cons, this]
        simp
      · rw [List.dropWhile_cons, this]
        simp
  | cons x xs ih =>
    have hx : p x = true := h x (List.mem_cons_self x xs)
    have hxs : ∀ y ∈ xs, p y = true := fun y hy => h y (List.mem_cons_of_mem x hy)
    obtain ⟨h1, h2⟩ := ih hxs
    constructor
    · rw [List.cons_append, List.takeWhile_cons, hx]
      simp [h1]
    · rw [List.cons_append, List.dropWhile_cons, hx]
      simpa using h2

theorem parseNatNum_natChars (n : Nat) (rest : List Char) (hr : NumBoundary rest) :
    parseNatNum (natChars n ++ rest) = some (n, rest) := by
  obtain ⟨h1, h2⟩ := takeWhile_append_all (natChars_digits n) hr
  unfold parseNatNum
  rw [h1, h2]
  have hne : (natChars n).isEmpty = false := by
    cases hcs : natChars n with
    | nil => exact absurd hcs (natChars_ne_nil n)
    | cons c t => rfl
  rw [hne]
  simp only [Bool.false_eq_true, if_false, Option.some.injEq, Prod.mk.injEq, and_true]
  unfold natChars
  by_cases h : n = 0
  · simp [h]
  · simp only [h, if_false]
    rw [foldl_digitChars (natDigits n) (natDigits_lt n) 0]
    rw [natDigits_eq, Nat.ofDigits_digits]
    ring

theorem parseNum_intChars (i : Int) (rest : List Char) (hr : NumBoundary rest) :
    parseNum (intChars i ++ rest) = some (i, rest) := by
  unfold intChars
  by_cases h : i < 0
  · rw [if_pos h]
    unfold parseNum
    rw [List.cons_append]
    rw [if_pos (by simp)]
    simp only [List.head?_cons, List.tail_cons]
    rw [parseNatNum_natChars i.natAbs rest hr]
    have habs : -((i.natAbs : Nat) : Int) = i := by omega
    simp [habs]
    rw [abs_of_neg h]
    ring
  · rw [if_neg h]
    unfold parseNum
    have hhead : ¬ (natChars i.natAbs ++ rest).head? = some '-' := by
      cases hcs : natChars i.natAbs with
      | nil => exact absurd hcs (natChars_ne_nil _)
      | cons c t =>
        have hdig : c.isDigit = true :=
          natChars_digits _ c (by rw [hcs]; exact List.mem_cons_self c t)
        simp only [hcs, List.cons_append, List.head?_cons, Option.some.injEq]
        intro hc
        rw [hc] at hdig
        exact absurd hdig (by decide)
    rw [if_neg hhead]
    rw [parseNatNum_natChars i.natAbs rest hr]
    have habs : ((i.natAbs : Nat) : Int) = i := by omega
    simp [habs]

/-! ## String literal parsing -/

theorem strMk_data (s : String) : String.mk s.data = s := by
  cases s
  rfl

theorem parseStringBody_close (rest : List Char) :
    parseStringBody ('"' :: rest) = some ([], rest) := by
  cases rest with
  | nil => rfl
  | cons a t =>
    rw [parseStringBody]
    rw [if_pos rfl]

theorem parseStringBody_esc (c : Char) (rest : List Char) :
    parseStringBody ('\\' :: c :: rest) =
      (parseStringBody rest).map (fun sr => (c :: sr.1, sr.2)) := by
  rw [parseStringBody]
  rw [if_neg (by decide), if_pos rfl]

theorem parseStringBody_raw (c : Char) (rest : List Char)
    (h1 : ¬ c = '"') (h2 : ¬ c = '\\') :
    parseStringBody (c :: rest) =
      (parseStringBody rest).map (fun sr => (c :: sr.1, sr.2)) := by
  cases rest with
  | nil =>
    rw [parseStringBody.eq_2]
    rw [if_neg h1, if_neg h2]
  | cons a t =>
    rw [parseStringBody]
    rw [if_neg h1, if_neg h2]

theorem parseStringBody_escape :
    ∀ (cs rest : List Char),
      parseStringBody (escapeChars cs ++ ('"' :: rest)) = some (cs, rest) := by
  intro cs
  induction cs with
  | nil =>
    intro rest
    rw [escapeChars, List.nil_append, parseStringBody_close]
  | cons c t ih =>
    intro rest
    rw [escapeChars]
    by_cases h1 : c = '\\'
    · subst h1
      rw [escChar, if_pos rfl, List.append_assoc, List.cons_append, List.cons_append,
          List.nil_append]
      rw [parseStringBody_esc]
      rw [ih rest]
      rfl
    · by_cases h2 : c = '"'
      · subst h2
        rw [escChar, if_neg h1, if_pos rfl, List.append_assoc, List.cons_append,
            List.cons_append, List.nil_append]
        rw [parseStringBody_esc]
        rw [ih rest]
        rfl
      · rw [escChar, if_neg h1, if_neg h2, List.append_assoc, List.cons_append,
            List.nil_append]
        rw [parseStringBody_raw c _ h2 h1]
        rw [ih rest]
        rfl

/-! ## Parser head dispatch -/

theorem parseV_null (fuel : Nat) (cs : List Char) :
    parseV (fuel + 1) ('n' :: cs) = expectLit ['u', 'l', 'l'] cs .jnull := by
  rw [parseV]
  rw [if_pos rfl]

theorem parseV_true (fuel : Nat) (cs : List Char) :
    parseV (fuel + 1) ('t' :: cs) = expectLit ['r', 'u', 'e'] cs (.jbool true) := by
  rw [parseV]
  rw [if_neg (by decide), if_pos rfl]

theorem parseV_false (fuel : Nat) (cs : List Char) :
    parseV (fuel + 1) ('f' :: cs) = expectLit ['a', 'l', 's', 'e'] cs (.jbool false) := by
  rw [parseV]
  rw [if_neg (by decide), if_neg (by decide), if_pos rfl]

theorem parseV_quote (fuel : Nat) (cs : List Char) :
    parseV (fuel + 1) ('"' :: cs) =
      (parseStringBody cs).map (fun sr => (.jstr (String.mk sr.1), sr.2)) := by
  rw [parseV]
  rw [if_neg (by decide), if_neg (by decide), if_neg (by decide), if_pos rfl]

theorem parseV_arr (fuel : Nat) (cs : List Char) :
    parseV (fuel + 1) ('[' :: cs) =
      (if cs.head? = some ']' then some (.jarr [], cs.tail)
       else
        (parseV fuel cs).bind (fun vr =>
          (parseElems fuel vr.2).map (fun er => (.jarr (vr.1 :: er.1), er.2)))) := by
  rw [parseV]
  rw [if_neg (by decide), if_neg (by decide), if_neg (by decide), if_neg (by decide),
      if_pos rfl]

theorem parseV_obj (fuel : Nat) (cs : List Char) :
    parseV (fuel + 1) ('{' :: cs) =
      (if cs.head? = some '}' then some (.jobj [], cs.tail)
       else
        (parseField fuel cs).bind (fun fr =>
          (parseFields fuel fr.2).map (fun gr => (.jobj (fr.1 :: gr.1), gr.2)))) := by
  rw [parseV]
  rw [if_neg (by decide), if_neg (by decide), if_neg (by decide), if_neg (by decide),
      if_neg (by decide), if_pos rfl]

theorem parseV_num (fuel : Nat) (c : Char) (cs : List Char)
    (h1 : ¬ c = 'n') (h2 : ¬ c = 't') (h3 : ¬ c = 'f') (h4 : ¬ c = '"')
    (h5 : ¬ c = '[') (h6 : ¬ c = '{') :
    parseV (fuel + 1) (c :: cs) =
      (parseNum (c :: cs)).map (fun nr => (.jnum nr.1, nr.2)) := by
  rw [parseV]
  rw [if_neg h1, if_neg h2, if_neg h3, if_neg h4, if_neg h5, if_neg h6]

theorem parseElems_close (fuel : Nat) (cs : List Char) :
    parseElems (fuel + 1) (']' :: cs) = some ([], cs) := by
  rw [parseElems]
  rw [if_pos rfl]

theorem parseElems_comma (fuel : Nat) (cs : List Char) :
    parseElems (fuel + 1) (',' :: cs) =
      (parseV fuel cs).bind (fun vr =>
        (parseElems fuel vr.2).map (fun er => (vr.1 :: er.1, er.2))) := by
  rw [parseElems]
  rw [if_neg (by decide), if_pos rfl]

theorem parseField_quote (fuel : Nat) (cs : List Char) :
    parseField (fuel + 1) ('"' :: cs) =
      (parseStringBody cs).bind (fun kr =>
        if kr.2.head? = some ':' then
          (parseV fuel kr.2.tail).map (fun vr => ((String.mk kr.1, vr.1), vr.2))
        else none) := by
  rw [parseField]
  rw [if_pos rfl]

theorem parseFields_close (fuel : Nat) (cs : List Char) :
    parseFields (fuel + 1) ('}' :: cs) = some ([], cs) := by
  rw [parseFields]
  rw [if_pos rfl]

theorem parseFields_comma (fuel : Nat) (cs : List Char) :
    parseFields (fuel + 1) (',' :: cs) =
      (parseField fuel cs).bind (fun fr =>
        (parseFields fuel fr.2).map (fun gr => (fr.1 :: gr.1, gr.2))) := by
  rw [parseFields]
  rw [if_neg (by decide), if_pos rfl]

/-! ## Shape facts about renderings -/

theorem isDigit_not_special {c : Char} (h : c.isDigit = true) :
    ¬ c = 'n' ∧ ¬ c = 't' ∧ ¬ c = 'f' ∧ ¬ c = '"' ∧ ¬ c = '[' ∧ ¬ c = '{' ∧
      ¬ c = ']' ∧ ¬ c = ',' ∧ ¬ c = '}' := by
  refine ⟨?_, ?_, ?_, ?_, ?_, ?_, ?_, ?_, ?_⟩ <;>
    (intro hc; rw [hc] at h; exact absurd h (by decide))

theorem intChars_head (i : Int) :
    ∃ c t, intChars i = c :: t ∧ (c = '-' ∨ c.isDigit = true) := by
  unfold intChars
  by_cases h : i < 0
  · exact ⟨'-', natChars i.natAbs, by rw [if_pos h], Or.inl rfl⟩
  · rw [if_neg h]
    cases hcs : natChars i.natAbs with
    | nil => exact absurd hcs (natChars_ne_nil _)
    | cons c t =>
      refine ⟨c, t, rfl, Or.inr ?_⟩
      exact natChars_digits _ c (by rw [hcs]; exact List.mem_cons_self c t)

theorem stringifyV_head (v : JsonValue) :
    ∃ c t, stringifyV v = c :: t ∧ ¬ c = ']' ∧ ¬ c = ',' ∧ ¬ c = '}' := by
  cases v with
  | jnull => exact ⟨'n', ['u', 'l', 'l'], rfl, by decide, by decide, by decide⟩
  | jbool b =>
    rcases b with _ | _
    · exact ⟨'f', ['a', 'l', 's', 'e'], rfl, by decide, by decide, by decide⟩
    · exact ⟨'t', ['r', 'u', 'e'], rfl, by decide, by decide, by decide⟩
  | jnum i =>
    obtain ⟨c, t, hct, hc⟩ := intChars_head i
    refine ⟨c, t, by rw [stringifyV, hct], ?_⟩
    rcases hc with rfl | hd
    · exact ⟨by decide, by decide, by decide⟩
    · obtain ⟨_, _, _, _, _, _, g1, g2, g3⟩ := isDigit_not_special hd
      exact ⟨g1, g2, g3⟩
  | jstr s => exact ⟨'"', _, rfl, by decide, by decide, by decide⟩
  | jarr vs => cases vs with
    | nil => exact ⟨'[', _, rfl, by decide, by decide, by decide⟩
    | cons v vs => exact ⟨'[', _, rfl, by decide, by decide, by decide⟩
  | jobj fs => cases fs with
    | nil => exact ⟨'{', _, rfl, by decide, by decide, by decide⟩
    | cons f fs => exact ⟨'{', _, rfl, by decide, by decide, by decide⟩

theorem stringifyElems_head (vs : List JsonValue) :
    ∃ c t, stringifyElems vs = c :: t ∧ (c = ']' ∨ c = ',') := by
  cases vs with
  | nil => exact ⟨']', [], rfl, Or.inl rfl⟩
  | cons v vs => exact ⟨',', _, rfl, Or.inr rfl⟩

theorem stringifyFields_head (fs : List (String × JsonValue)) :
    ∃ c t, stringifyFields fs = c :: t ∧ (c = '}' ∨ c = ',') := by
  cases fs with
  | nil => exact ⟨'}', [], rfl, Or.inl rfl⟩
  | cons f fs => exact ⟨',', _, rfl, Or.inr rfl⟩

theorem numBoundary_elems (vs : List JsonValue) (rest : List Char) :
    NumBoundary (stringifyElems vs ++ rest) := by
  obtain ⟨c, t, hct, hc⟩ := stringifyElems_head vs
  intro d hd
  rw [hct, List.cons_append, List.head?_cons, Option.some.injEq] at hd
  rcases hc with rfl | rfl <;> (rw [← hd]; decide)

theorem numBoundary_fields (fs : List (String × JsonValue)) (rest : List Char) :
    NumBoundary (stringifyFields fs ++ rest) := by
  obtain ⟨c, t, hct, hc⟩ := stringifyFields_head fs
  intro d hd
  rw [hct, List.cons_append, List.head?_cons, Option.some.injEq] at hd
  rcases hc with rfl | rfl <;> (rw [← hd]; decide)

/-! ## Positivity of the fuel measures -/

theorem jfuelL_pos (vs : List JsonValue) : 1 ≤ jfuelL vs := by
  cases vs <;> simp [jfuelL]

theorem jfuelF_pos (fs : List (String × JsonValue)) : 1 ≤ jfuelF fs := by
  cases fs with
  | nil => simp [jfuelF]
  | cons f fs => simp [jfuelF]

theorem jfuel_pos (v : JsonValue) : 1 ≤ jfuel v := by
  cases v with
  | jarr vs => exact jfuelL_pos vs
  | jobj fs => exact jfuelF_pos fs
  | jnull => exact le_refl 1
  | jbool b => exact le_refl 1
  | jnum i => exact le_refl 1
  | jstr s => exact le_refl 1

theorem jfuelField_pos (f : String × JsonValue) : 1 ≤ jfuelField f := by
  obtain ⟨k, v⟩ := f
  simp [jfuelField]

/-! ## The decoder is a left inverse of the encoder -/

theorem parse_stringify_all : ∀ fuel : Nat,
    (∀ v, jfuel v ≤ fuel → ∀ rest, NumBoundary rest →
      parseV fuel (stringifyV v ++ rest) = some (v, rest)) ∧
    (∀ vs, jfuelL vs ≤ fuel → ∀ rest,
      parseElems fuel (stringifyElems vs ++ rest) = some (vs, rest)) ∧
    (∀ fd, jfuelField fd ≤ fuel → ∀ rest, NumBoundary rest →
      parseField fuel (stringifyField fd ++ rest) = some (fd, rest)) ∧
    (∀ fs, jfuelF fs ≤ fuel → ∀ rest,
      parseFields fuel (stringifyFields fs ++ rest) = some (fs, rest)) := by
  intro fuel
  induction fuel with
  | zero =>
    refine ⟨?_, ?_, ?_, ?_⟩
    · intro v hv
      exact absurd hv (by have := jfuel_pos v; omega)
    · intro vs hvs
      exact absurd hvs (by have := jfuelL_pos vs; omega)
    · intro fd hfd
      exact absurd hfd (by have := jfuelField_pos fd; omega)
    · intro fs hfs
      exact absurd hfs (by have := jfuelF_pos fs; omega)
  | succ f ih =>
    obtain ⟨ihA, ihB, ihC, ihD⟩ := ih
    refine ⟨?_, ?_, ?_, ?_⟩
    · intro v hv rest hrest
      cases v with
      | jnull =>
        rw [show stringifyV .jnull = ['n', 'u', 'l', 'l'] from rfl]
        simp only [List.cons_append, List.nil_append]
        rw [parseV_null]
        simp [expectLit]
      | jbool b =>
        cases b with
        | true =>
          rw [show stringifyV (.jbool true) = ['t', 'r', 'u', 'e'] from rfl]
          simp only [List.cons_append, List.nil_append]
          rw [parseV_true]
          simp [expectLit]
        | false =>
          rw [show stringifyV (.jbool false) = ['f', 'a', 'l', 's', 'e'] from rfl]
          simp only [List.cons_append, List.nil_append]
          rw [parseV_false]
          simp [expectLit]
      | jnum i =>
        obtain ⟨c, t, hct, hc⟩ := intChars_head i
        rw [show stringifyV (.jnum i) = intChars i from rfl, hct, List.cons_append]
        rcases hc with rfl | hd
        · rw [parseV_num f '-' _ (by decide) (by decide) (by decide) (by decide)
            (by decide) (by decide)]
          rw [← List.cons_append, ← hct, parseNum_intChars i rest hrest]
          rfl
        · obtain ⟨g1, g2, g3, g4, g5, g6, _, _, _⟩ := isDigit_not_special hd
          rw [parseV_num f c _ g1 g2 g3 g4 g5 g6]
          rw [← List.cons_append, ← hct, parseNum_intChars i rest hrest]
          rfl
      | jstr s =>
        rw [show stringifyV (.jstr s) = '"' :: (escapeChars s.data ++ ['"']) from rfl]
        rw [List.cons_append, List.append_assoc]
        rw [show (['"'] : List Char) ++ rest = '"' :: rest from rfl]
        rw [parseV_quote, parseStringBody_escape]
        simp [strMk_data]
      | jarr vs =>
        cases vs with
        | nil =>
          rw [show stringifyV (.jarr []) = ['[', ']'] from rfl]
          simp only [List.cons_append, List.nil_append]
          rw [parseV_arr]
          simp
        | cons v vs =>
          rw [show stringifyV (.jarr (v :: vs))
              = '[' :: (stringifyV v ++ stringifyElems vs) from rfl]
          rw [List.cons_append, List.append_assoc]
          rw [parseV_arr]
          obtain ⟨c, t, hct, hc1, hc2, hc3⟩ := stringifyV_head v
          rw [hct, List.cons_append]
          rw [if_neg (by simp only [List.head?_cons, Option.some.injEq]; exact hc1)]
          rw [← List.cons_append, ← hct]
          simp only [jfuel, jfuelL] at hv
          have h1 : jfuel v ≤ f := by
            have := le_max_left (jfuel v) (jfuelL vs)
            omega
          have h2 : jfuelL vs ≤ f := by
            have := le_max_right (jfuel v) (jfuelL vs)
            omega
          rw [ihA v h1 _ (numBoundary_elems vs rest)]
          simp only [Option.some_bind]
          rw [ihB vs h2 rest]
          rfl
      | jobj fs =>
        cases fs with
        | nil =>
          rw [show stringifyV (.jobj []) = ['{', '}'] from rfl]
          simp only [List.cons_append, List.nil_append]
          rw [parseV_obj]
          simp
        | cons fd fs =>
          rw [show stringifyV (.jobj (fd :: fs))
              = '{' :: (stringifyField fd ++ stringifyFields fs) from rfl]
          rw [List.cons_append, List.append_assoc]
          rw [parseV_obj]
          have hfield : ∃ t, stringifyField fd = '"' :: t := by
            obtain ⟨k, v⟩ := fd
            exact ⟨_, rfl⟩
          obtain ⟨t, hct⟩ := hfield
          rw [hct, List.cons_append]
          rw [if_neg (by simp only [List.head?_cons, Option.some.injEq]; decide)]
          rw [← List.cons_append, ← hct]
          simp only [jfuel, jfuelF] at hv
          have h1 : jfuelField fd ≤ f := by
            have := le_max_left (jfuelField fd) (jfuelF fs)
            omega
          have h2 : jfuelF fs ≤ f := by
            have := le_max_right (jfuelField fd) (jfuelF fs)
            omega
          rw [ihC fd h1 _ (numBoundary_fields fs rest)]
          simp only [Option.some_bind]
          rw [ihD fs h2 rest]
          rfl
    · intro vs hvs rest
      cases vs with
      | nil =>
        rw [show stringifyElems [] = [']'] from rfl, List.cons_append, List.nil_append]
        rw [parseElems_close]
      | cons v vs =>
        rw [show stringifyElems (v :: vs)
            = ',' :: (stringifyV v ++ stringifyElems vs) from rfl]
        rw [List.cons_append, List.append_assoc]
        rw [parseElems_comma]
        simp only [jfuelL] at hvs
        have h1 : jfuel v ≤ f := by
          have := le_max_left (jfuel v) (jfuelL vs)
          omega
        have h2 : jfuelL vs ≤ f := by
          have := le_max_right (jfuel v) (jfuelL vs)
          omega
        rw [ihA v h1 _ (numBoundary_elems vs rest)]
        simp only [Option.some_bind]
        rw [ihB vs h2 rest]
        rfl
    · intro fd hfd rest hrest
      obtain ⟨k, v⟩ := fd
      have hshape : stringifyField (k, v) ++ rest
          = '"' :: (escapeChars k.data ++ ('"' :: (':' :: (stringifyV v ++ rest)))) := by
        simp [stringifyField, quoteChars]
      rw [hshape, parseField_quote, parseStringBody_escape]
      simp only [Option.some_bind, List.head?_cons]
      rw [if_pos (by trivial)]
      simp only [List.tail_cons]
      simp only [jfuelField] at hfd
      have h1 : jfuel v ≤ f := by omega
      rw [ihA v h1 rest hrest]
      simp [strMk_data]
    · intro fs hfs rest
      cases fs with
      | nil =>
        rw [show stringifyFields [] = ['}'] from rfl, List.cons_append, List.nil_append]
        rw [parseFields_close]
      | cons fd fs =>
        rw [show stringifyFields (fd :: fs)
            = ',' :: (stringifyField fd ++ stringifyFields fs) from rfl]
        rw [List.cons_append, List.append_assoc]
        rw [parseFields_comma]
        simp only [jfuelF] at hfs
        have h1 : jfuelField fd ≤ f := by
          have := le_max_left (jfuelField fd) (jfuelF fs)
          omega
        have h2 : jfuelF fs ≤ f := by
          have := le_max_right (jfuelField fd) (jfuelF fs)
          omega
        rw [ihC fd h1 _ (numBoundary_fields fs rest)]
        simp only [Option.some_bind]
        rw [ihD fs h2 rest]
        rfl

theorem jfuel_le_length : ∀ n : Nat,
    (∀ v, jfuel v ≤ n → jfuel v ≤ (stringifyV v).length) ∧
    (∀ vs, jfuelL vs ≤ n → jfuelL vs ≤ (stringifyElems vs).length) ∧
    (∀ fd, jfuelField fd ≤ n → jfuelField fd ≤ (stringifyField fd).length) ∧
    (∀ fs, jfuelF fs ≤ n → jfuelF fs ≤ (stringifyFields fs).length) := by
  intro n
  induction n with
  | zero =>
    refine ⟨?_, ?_, ?_, ?_⟩
    · intro v hv
      exact absurd hv (by have := jfuel_pos v; omega)
    · intro vs hvs
      exact absurd hvs (by have := jfuelL_pos vs; omega)
    · intro fd hfd
      exact absurd hfd (by have := jfuelField_pos fd; omega)
    · intro fs hfs
      exact absurd hfs (by have := jfuelF_pos fs; omega)
  | succ n ih =>
    obtain ⟨ihA, ihB, ihC, ihD⟩ := ih
    refine ⟨?_, ?_, ?_, ?_⟩
    · intro v hv
      cases v with
      | jnull => simp [jfuel, stringifyV]
      | jbool b => cases b <;> simp [jfuel, stringifyV]
      | jnum i =>
        obtain ⟨c, t, hct, _⟩ := intChars_head i
        rw [show stringifyV (.jnum i) = intChars i from rfl, hct]
        simp [jfuel]
      | jstr s =>
        rw [show stringifyV (.jstr s) = '"' :: (escapeChars s.data ++ ['"']) from rfl]
        simp [jfuel]
      | jarr vs =>
        cases vs with
        | nil => simp [jfuel, jfuelL, stringifyV]
        | cons v vs =>
          rw [show stringifyV (.jarr (v :: vs))
              = '[' :: (stringifyV v ++ stringifyElems vs) from rfl]
          simp only [jfuel, jfuelL] at hv ⊢
          have h1 : jfuel v ≤ n := by
            have := le_max_left (jfuel v) (jfuelL vs)
            omega
          have h2 : jfuelL vs ≤ n := by
            have := le_max_right (jfuel v) (jfuelL vs)
            omega
          have b1 := ihA v h1
          have b2 := ihB vs h2
          have hm : max (jfuel v) (jfuelL vs)
              ≤ (stringifyV v).length + (stringifyElems vs).length :=
            max_le (by omega) (by omega)
          simp only [List.length_cons, List.length_append]
          omega
      | jobj fs =>
        cases fs with
        | nil => simp [jfuel, jfuelF, stringifyV]
        | cons fd fs =>
          rw [show stringifyV (.jobj (fd :: fs))
              = '{' :: (stringifyField fd ++ stringifyFields fs) from rfl]
          simp only [jfuel, jfuelF] at hv ⊢
          have h1 : jfuelField fd ≤ n := by
            have := le_max_left (jfuelField fd) (jfuelF fs)
            omega
          have h2 : jfuelF fs ≤ n := by
            have := le_max_right (jfuelField fd) (jfuelF fs)
            omega
          have b1 := ihC fd h1
          have b2 := ihD fs h2
          have hm : max (jfuelField fd) (jfuelF fs)
              ≤ (stringifyField fd).length + (stringifyFields fs).length :=
            max_le (by omega) (by omega)
          simp only [List.length_cons, List.length_append]
          omega
    · intro vs hvs
      cases vs with
      | nil => simp [jfuelL, stringifyElems]
      | cons v vs =>
        rw [show stringifyElems (v :: vs)
            = ',' :: (stringifyV v ++ stringifyElems vs) from rfl]
        simp only [jfuelL] at hvs ⊢
        have h1 : jfuel v ≤ n := by
          have := le_max_left (jfuel v) (jfuelL vs)
          omega
        have h2 : jfuelL vs ≤ n := by
          have := le_max_right (jfuel v) (jfuelL vs)
          omega
        have b1 := ihA v h1
        have b2 := ihB vs h2
        have hm : max (jfuel v) (jfuelL vs)
            ≤ (stringifyV v).length + (stringifyElems vs).length :=
          max_le (by omega) (by omega)
        simp only [List.length_cons, List.length_append]
        omega
    · intro fd hfd
      obtain ⟨k, v⟩ := fd
      rw [show stringifyField (k, v) = quoteChars k.data ++ (':' :: stringifyV v) from rfl]
      simp only [jfuelField] at hfd ⊢
      have h1 : jfuel v ≤ n := by omega
      have b1 := ihA v h1
      simp only [List.length_append, List.length_cons]
      omega
    · intro fs hfs
      cases fs with
      | nil => simp [jfuelF, stringifyFields]
      | cons fd fs =>
        rw [show stringifyFields (fd :: fs)
            = ',' :: (stringifyField fd ++ stringifyFields fs) from rfl]
        simp only [jfuelF] at hfs ⊢
        have h1 : jfuelField fd ≤ n := by
          have := le_max_left (jfuelField fd) (jfuelF fs)
          omega
        have h2 : jfuelF fs ≤ n := by
          have := le_max_right (jfuelField fd) (jfuelF fs)
          omega
        have b1 := ihC fd h1
        have b2 := ihD fs h2
        have hm : max (jfuelField fd) (jfuelF fs)
            ≤ (stringifyField fd).length + (stringifyFields fs).length :=
          max_le (by omega) (by omega)
        simp only [List.length_cons, List.length_append]
        omega

theorem numBoundary_nil : NumBoundary [] := by
  intro c hc
  simp at hc

/-- `JSON.parse` inverts `JSON.stringify`: the codec loses nothing. -/
theorem jsonParse_jsonStringify (v : JsonValue) :
    jsonParse (jsonStringify v) = some v := by
  unfold jsonParse jsonStringify
  rw [show (String.mk (stringifyV v)).data = stringifyV v from rfl]
  have hb : jfuel v ≤ (stringifyV v).length + 1 := by
    have := (jfuel_le_length (jfuel v)).1 v le_rfl
    omega
  have hp := (parse_stringify_all ((stringifyV v).length + 1)).1 v hb [] numBoundary_nil
  rw [List.append_nil] at hp
  rw [hp]

/-- Everything `JSON.stringify` produces is a well-formed stored text. -/
theorem contentWF_stringify (v : JsonValue) :
    contentWF (jsonStringify v) = true := by
  unfold contentWF
  rw [jsonParse_jsonStringify]
  simp

/-- A well-formed stored text parses back to the value it serialises. -/
theorem contentWF_parse {s : String} (h : contentWF s = true) :
    ∃ v, jsonParse s = some v ∧ jsonStringify v = s := by
  unfold contentWF at h
  cases hp : jsonParse s with
  | none => rw [hp] at h; exact absurd h (by simp)
  | some v =>
    rw [hp] at h
    simp only [decide_eq_true_eq] at h
    exact ⟨v, rfl, h⟩

/-! ## The retention purge engine -/

/-- Claim C1.  Purge deletes exactly the conversations whose
`last_accessed_at` lies strictly before `now - T`: afterwards every
remaining conversation is inside the window, every row that was outside
the window is gone, the deleted count equals the number of rows matching
the predicate, and the error count is zero. -/
theorem purge_exact (db : DB) (now T : Int) :
    (∀ c ∈ (purgeWithF T db now false).1.conversations,
      now - T ≤ c.last_accessed_at) ∧
    (∀ c ∈ db.conversations, c.last_accessed_at < now - T →
      c ∉ (purgeWithF T db now false).1.conversations) ∧
    (purgeWithF T db now false).2.deleted
      = (db.conversations.filter
          (fun c => decide (c.last_accessed_at < now - T))).length ∧
    (purgeWithF T db now false).2.errors = 0 := by
  refine ⟨?_, ?_, ?_, ?_⟩
  · intro c hc
    simp only [purgeWithF, Bool.false_eq_true, if_false, List.mem_filter,
      Bool.not_eq_eq_eq_not, Bool.not_true, decide_eq_false_iff_not, not_lt] at hc
    exact hc.2
  · intro c hc hlt
    simp only [purgeWithF, Bool.false_eq_true, if_false, List.mem_filter,
      Bool.not_eq_eq_eq_not, Bool.not_true, decide_eq_false_iff_not, not_lt]
    intro hmem
    omega
  · simp [purgeWithF]
  · simp [purgeWithF]

/-- Claim C5.  Purge is idempotent: an immediately repeated call (same
state, same clock) deletes zero rows and reports zero errors. -/
theorem purge_idempotent (db : DB) (now T : Int) :
    (purgeWithF T (purgeWithF T db now false).1 now false).2.deleted = 0 ∧
    (purgeWithF T (purgeWithF T db now false).1 now false).2.errors = 0 := by
  constructor
  · simp only [purgeWithF, Bool.false_eq_true, if_false, List.filter_filter]
    rw [List.length_map, List.length_eq_zero]
    apply List.filter_eq_nil_iff.mpr
    intro c hc
    simp
  · simp [purgeWithF]

/-- Claim C6.  The purge engine never raises: a raised statement is
caught and reported as `{deleted := 0, errors := 1}` with the state
unchanged, and on the fault-free path it reports the exact match count
with zero errors. -/
theorem purge_error_contract (db : DB) (now T : Int) (fault : Bool) :
    (fault = true → purgeWithF T db now fault = (db, ⟨0, 1⟩)) ∧
    (fault = false →
      (purgeWithF T db now fault).2
        = ⟨(db.conversations.filter
            (fun c => decide (c.last_accessed_at < now - T))).length, 0⟩) := by
  constructor
  · intro h
    subst h
    simp [purgeWithF]
  · intro h
    subst h
    simp [purgeWithF]

/-- Witness for C1 at a concrete store: the only conversation is stale
at the chosen clock and is deleted, with a deleted count of 1. -/
theorem purge_exact_witness :
    ((∀ c ∈ (purgeWithF 50 sampleDB 300 false).1.conversations,
        (300 : Int) - 50 ≤ c.last_accessed_at) ∧
      (∀ c ∈ sampleDB.conversations, c.last_accessed_at < 300 - 50 →
        c ∉ (purgeWithF 50 sampleDB 300 false).1.conversations) ∧
      (purgeWithF 50 sampleDB 300 false).2.deleted
        = (sampleDB.conversations.filter
            (fun c => decide (c.last_accessed_at < 300 - 50))).length ∧
      (purgeWithF 50 sampleDB 300 false).2.errors = 0) ∧
    (purgeWithF 50 sampleDB 300 false).2.deleted = 1 :=
  ⟨purge_exact sampleDB 300 50, by decide⟩

/-- Witness for C6 at a concrete store: the fault path returns the
structured error result with the state unchanged, and the fault-free
path reports the exact count. -/
theorem purge_error_contract_witness :
    purgeWithF 50 sampleDB 300 true = (sampleDB, ⟨0, 1⟩) ∧
    (purgeWithF 50 sampleDB 300 false).2 = ⟨1, 0⟩ := by
  constructor
  · exact (purge_error_contract sampleDB 300 50 true).1 rfl
  · rw [(purge_error_contract sampleDB 300 50 false).2 rfl]
    decide

/-! ## Cascade deletion and referential integrity -/

/-- Claim C2.  Deleting a conversation (explicitly or through purge)
also deletes every message referencing it, and both deletion paths
preserve referential integrity, so no orphan message ever persists. -/
theorem cascade_no_orphans (db : DB) (sid : String) (now T : Int) :
    ((∃ c ∈ db.conversations, c.session_id = sid) →
      ∀ m ∈ (deleteConversationF db sid false).1.messages, ¬ m.session_id = sid) ∧
    (noOrphans db → noOrphans (deleteConversationF db sid false).1) ∧
    (noOrphans db → noOrphans (purgeWithF T db now false).1) ∧
    (∀ c ∈ db.conversations, c.last_accessed_at < now - T →
      ∀ m ∈ (purgeWithF T db now false).1.messages, ¬ m.session_id = c.session_id) := by
  refine ⟨?_, ?_, ?_, ?_⟩
  · rintro ⟨c, hc, hcsid⟩ m hm heq
    simp only [deleteConversationF, Bool.false_eq_true, if_false, List.mem_filter,
      Bool.not_eq_eq_eq_not, Bool.not_true] at hm
    have hin : m.session_id ∈ (db.conversations.filter
        (fun c => decide (c.session_id = sid))).map (fun c => c.session_id) :=
      List.mem_map.mpr ⟨c, List.mem_filter.mpr ⟨hc, by simp [hcsid]⟩, by rw [hcsid, heq]⟩
    have : m.session_id ∉ (db.conversations.filter
        (fun c => decide (c.session_id = sid))).map (fun c => c.session_id) := by
      simpa using hm.2
    exact this hin
  · intro hno m hm
    simp only [deleteConversationF, Bool.false_eq_true, if_false, List.mem_filter,
      Bool.not_eq_eq_eq_not, Bool.not_true] at hm
    obtain ⟨hm1, hm2a⟩ := hm
    have hm2 : m.session_id ∉ (db.conversations.filter
        (fun c => decide (c.session_id = sid))).map (fun c => c.session_id) := by
      simpa using hm2a
    obtain ⟨c, hc, hcs⟩ := hno m hm1
    have hcns : ¬ c.session_id = sid := by
      intro h
      exact hm2 (List.mem_map.mpr
        ⟨c, List.mem_filter.mpr ⟨hc, by simp [h]⟩, by rw [hcs]⟩)
    exact ⟨c, List.mem_filter.mpr ⟨hc, by simp [hcns]⟩, hcs⟩
  · intro hno m hm
    simp only [purgeWithF, Bool.false_eq_true, if_false, List.mem_filter,
      Bool.not_eq_eq_eq_not, Bool.not_true] at hm
    obtain ⟨hm1, hm2a⟩ := hm
    have hm2 : m.session_id ∉ (db.conversations.filter
        (fun c => decide (c.last_accessed_at < now - T))).map (fun c => c.session_id) := by
      simpa using hm2a
    obtain ⟨c, hc, hcs⟩ := hno m hm1
    have hkeep : ¬ c.last_accessed_at < now - T := by
      intro h
      exact hm2 (List.mem_map.mpr
        ⟨c, List.mem_filter.mpr ⟨hc, by simp [h]⟩, by rw [hcs]⟩)
    exact ⟨c, List.mem_filter.mpr ⟨hc, by simp [hkeep]⟩, hcs⟩
  · intro c hc hlt m hm heq
    simp only [purgeWithF, Bool.false_eq_true, if_false, List.mem_filter,
      Bool.not_eq_eq_eq_not, Bool.not_true] at hm
    have hni : m.session_id ∉ (db.conversations.filter
        (fun c => decide (c.last_accessed_at < now - T))).map (fun c => c.session_id) := by
      simpa using hm.2
    exact hni (List.mem_map.mpr
      ⟨c, List.mem_filter.mpr ⟨hc, by simp [hlt]⟩, by rw [heq]⟩)

/-- Witness for C2 at a concrete store with referential integrity. -/
theorem cascade_no_orphans_witness :
    noOrphans sampleDB ∧
    (((∃ c ∈ sampleDB.conversations, c.session_id = "s1") →
      ∀ m ∈ (deleteConversationF sampleDB "s1" false).1.messages,
        ¬ m.session_id = "s1") ∧
    (noOrphans sampleDB → noOrphans (deleteConversationF sampleDB "s1" false).1) ∧
    (noOrphans sampleDB → noOrphans (purgeWithF 50 sampleDB 300 false).1) ∧
    (∀ c ∈ sampleDB.conversations, c.last_accessed_at < 300 - 50 →
      ∀ m ∈ (purgeWithF 50 sampleDB 300 false).1.messages,
        ¬ m.session_id = c.session_id)) :=
  ⟨by decide, cascade_no_orphans sampleDB "s1" 300 50⟩

/-! ## storeConversation: effect decomposition -/

theorem insertMessagesF_none (sid : String) (now : Int) :
    ∀ (ms : List TurnMsg) (db : DB),
      insertMessagesF sid now ms db none =
        (ms.foldl (fun d m =>
          insertMessage d sid now m.role (jsonStringify m.content)) db, true) := by
  intro ms
  induction ms with
  | nil =>
    intro db
    rfl
  | cons m t ih =>
    intro db
    simp only [insertMessagesF, List.foldl_cons]
    exact ih _

theorem insertMessagesF_fault (sid : String) (now : Int) :
    ∀ (ms : List TurnMsg) (db : DB) (j : Nat), j < ms.length →
      insertMessagesF sid now ms db (some j) =
        ((ms.take j).foldl (fun d m =>
          insertMessage d sid now m.role (jsonStringify m.content)) db, false) := by
  intro ms
  induction ms with
  | nil =>
    intro db j hj
    exact absurd hj (by simp)
  | cons m t ih =>
    intro db j hj
    cases j with
    | zero => simp [insertMessagesF]
    | succ k =>
      simp only [insertMessagesF, List.take_succ_cons, List.foldl_cons]
      exact ih _ k (by simpa using hj)

theorem foldl_insertMessage_conversations (sid : String) (now : Int) :
    ∀ (ms : List TurnMsg) (db : DB),
      (ms.foldl (fun d m =>
        insertMessage d sid now m.role (jsonStringify m.content)) db).conversations
        = db.conversations := by
  intro ms
  induction ms with
  | nil =>
    intro db
    rfl
  | cons m t ih =>
    intro db
    rw [List.foldl_cons, ih]
    rfl

theorem storeConversation_conversations (db : DB) (now : Int) (sid aid : String)
    (msgs : List TurnMsg) :
    (storeConversation db now sid aid msgs).conversations =
      (upsertConversation db now sid aid msgs.length).conversations := by
  unfold storeConversation
  rw [show storeConversationF db now sid aid msgs none
      = insertMessagesF sid now msgs
          (upsertConversation db now sid aid msgs.length) none from rfl]
  rw [insertMessagesF_none]
  exact foldl_insertMessage_conversations sid now msgs _

/-- Claim C3 (amended).  A `storeConversation` call whose session id
already exists preserves every field of the conversation row — in
particular `created_at`, `account_id` and `metadata`, which is NOT
overwritten on the conflict path — and only sets
`last_accessed_at := now`. -/
theorem storeConversation_second_call (db : DB) (now : Int) (sid aid : String)
    (msgs : List TurnMsg)
    (h : ∃ c ∈ db.conversations, c.session_id = sid) :
    (storeConversation db now sid aid msgs).conversations =
      db.conversations.map (fun c =>
        if c.session_id = sid then { c with last_accessed_at := now } else c) := by
  rw [storeConversation_conversations]
  unfold upsertConversation
  obtain ⟨c, hc, hcs⟩ := h
  rw [if_pos (List.any_eq_true.mpr ⟨c, hc, by simp [hcs]⟩)]

/-- Witness for the amended C3 at a concrete store. -/
theorem storeConversation_second_call_witness :
    (∃ c ∈ sampleDB.conversations, c.session_id = "s1") ∧
    (storeConversation sampleDB 200 "s1" "a1"
        [⟨"user", .jstr "More"⟩]).conversations =
      sampleDB.conversations.map (fun c =>
        if c.session_id = "s1" then { c with last_accessed_at := 200 } else c) :=
  ⟨by decide,
   storeConversation_second_call sampleDB 200 "s1" "a1"
     [⟨"user", .jstr "More"⟩] (by decide)⟩

/-- Counterexample to claim C3 as stated: after a second call appending
one more message under the same session id, the stored metadata still
reads message_count = 2 from the first call; it reflects neither the
cumulative count 3 nor the second call count 1, so metadata is not
overwritten. -/
theorem storeConversation_metadata_not_overwritten :
    ((storeConversation (storeConversation emptyDB 100 "s1" "a1"
        [⟨"user", .jstr "Hello"⟩, ⟨"assistant", .jstr "Hi"⟩])
      200 "s1" "a1" [⟨"user", .jstr "More"⟩]).conversations.map ConvRow.metadata)
      = [some (jsonStringify (.jobj [("message_count", .jnum 2)]))] ∧
    ¬ jsonStringify (.jobj [("message_count", .jnum 2)])
        = jsonStringify (.jobj [("message_count", .jnum 3)]) ∧
    ¬ jsonStringify (.jobj [("message_count", .jnum 2)])
        = jsonStringify (.jobj [("message_count", .jnum 1)]) := by
  decide

/-- Claim C4 (amended).  `storeConversation` is not atomic: each SQL
statement commits individually.  With no fault everything applies; a
fault on the upsert leaves the state unchanged; a fault on message `j`
leaves the conversation upsert and the first `j` message inserts
applied, and the error propagates (the Boolean is false). -/
theorem storeConversationF_effects (db : DB) (now : Int) (sid aid : String)
    (msgs : List TurnMsg) :
    (storeConversationF db now sid aid msgs none =
      (msgs.foldl (fun d m =>
          insertMessage d sid now m.role (jsonStringify m.content))
        (upsertConversation db now sid aid msgs.length), true)) ∧
    (storeConversationF db now sid aid msgs (some 0) = (db, false)) ∧
    (∀ j, j < msgs.length →
      storeConversationF db now sid aid msgs (some (j + 1)) =
        ((msgs.take j).foldl (fun d m =>
            insertMessage d sid now m.role (jsonStringify m.content))
          (upsertConversation db now sid aid msgs.length), false)) := by
  refine ⟨?_, rfl, ?_⟩
  · exact insertMessagesF_none sid now msgs _
  · intro j hj
    exact insertMessagesF_fault sid now msgs _ j hj

/-- Witness for the amended C4: a fault on the second message insert
leaves the upsert and the first insert applied. -/
theorem storeConversationF_effects_witness :
    (1 : Nat) < ([⟨"user", .jstr "A"⟩, ⟨"assistant", .jstr "B"⟩] : List TurnMsg).length ∧
    storeConversationF sampleDB 300 "s2" "a1"
        [⟨"user", .jstr "A"⟩, ⟨"assistant", .jstr "B"⟩] (some (1 + 1)) =
      ((([⟨"user", .jstr "A"⟩, ⟨"assistant", .jstr "B"⟩] : List TurnMsg).take 1).foldl
        (fun d m => insertMessage d "s2" 300 m.role (jsonStringify m.content))
        (upsertConversation sampleDB 300 "s2" "a1"
          ([⟨"user", .jstr "A"⟩, ⟨"assistant", .jstr "B"⟩] : List TurnMsg).length),
       false) :=
  ⟨by decide,
   (storeConversationF_effects sampleDB 300 "s2" "a1"
     [⟨"user", .jstr "A"⟩, ⟨"assistant", .jstr "B"⟩]).2.2 1 (by decide)⟩

/-- Counterexample to claim C4 as stated: a failing call whose state
differs from the state before the call — the conversation upsert
persisted although the call threw. -/
theorem storeConversation_not_atomic :
    (storeConversationF emptyDB 100 "s1" "a1"
      [⟨"user", .jstr "Hello"⟩] (some 1)).2 = false ∧
    ¬ (storeConversationF emptyDB 100 "s1" "a1"
      [⟨"user", .jstr "Hello"⟩] (some 1)).1 = emptyDB := by
  decide

/-! ## getConversation -/

theorem decodeMetadata_wf {mo : Option String} (h : metadataWF mo = true) :
    ∃ md, decodeMetadata mo = some md := by
  cases mo with
  | none => exact ⟨.jobj [], rfl⟩
  | some s =>
    by_cases hs : s = ""
    · exact ⟨.jobj [], by simp [decodeMetadata, hs]⟩
    · have hwf : contentWF s = true := by
        simp only [metadataWF, Bool.or_eq_true, decide_eq_true_eq] at h
        exact h.resolve_left hs
      obtain ⟨v, hp, _⟩ := contentWF_parse hwf
      exact ⟨v, by simp [decodeMetadata, hs, hp]⟩

theorem mapM_decodeMsg (l : List MsgRow)
    (h : ∀ m ∈ l, contentWF m.content = true) :
    ∃ outs, l.mapM decodeMsg = some outs ∧ List.Forall₂ MsgMatches l outs := by
  induction l with
  | nil => exact ⟨[], rfl, List.Forall₂.nil⟩
  | cons m t ih =>
    obtain ⟨v, hp, hs⟩ := contentWF_parse (h m (List.mem_cons_self m t))
    obtain ⟨outs, houts, hfa⟩ := ih (fun x hx => h x (List.mem_cons_of_mem m hx))
    have hdm : decodeMsg m = some ⟨m.role, v, m.timestamp⟩ := by
      simp [decodeMsg, hp]
    refine ⟨⟨m.role, v, m.timestamp⟩ :: outs, ?_, ?_⟩
    · rw [List.mapM_cons, hdm, houts]
      rfl
    · exact List.Forall₂.cons ⟨rfl, rfl, by rw [hs]⟩ hfa

theorem forall₂_msg_timestamps {l : List MsgRow} {l' : List MsgOut}
    (h : List.Forall₂ MsgMatches l l') :
    l'.map MsgOut.timestamp = l.map MsgRow.timestamp := by
  induction h with
  | nil => rfl
  | cons hr _ ih => simp [ih, hr.2.1]

theorem forall₂_mem_right {α β : Type} {R : α → β → Prop} {l : List α}
    {l' : List β} (h : List.Forall₂ R l l') :
    ∀ b ∈ l', ∃ a ∈ l, R a b := by
  induction h with
  | nil => intro b hb; exact absurd hb (by simp)
  | cons hr _ ih =>
    intro b hb
    rcases List.mem_cons.mp hb with rfl | hb2
    · exact ⟨_, List.mem_cons_self _ _, hr⟩
    · obtain ⟨a, ha, hab⟩ := ih b hb2
      exact ⟨a, List.mem_cons_of_mem _ ha, hab⟩

/-- The fault-free found path of `getConversation`: the update statement
sets `last_accessed_at := now` on the row, and the returned object
carries the row fields, the parsed metadata, and the decoded ordered
messages. -/
theorem getConv_found_aux (db : DB) (now : Int) (sid : String) (conv : ConvRow)
    (hwf : WFdb db)
    (hfind : db.conversations.find? (fun c => c.session_id = sid) = some conv) :
    ∃ res : ConvOut,
      getConversationF db now sid none =
        ({ db with conversations := db.conversations.map (fun c =>
            if c.session_id = sid then { c with last_accessed_at := now } else c) },
         some res) ∧
      res.session_id = conv.session_id ∧
      res.account_id = conv.account_id ∧
      res.created_at = conv.created_at ∧
      res.last_accessed_at = now ∧
      res.metadata = (decodeMetadata conv.metadata).getD (.jobj []) ∧
      List.Forall₂ MsgMatches
        (sortMsgs (db.messages.filter (fun m => m.session_id = sid))) res.messages := by
  have hconv_mem : conv ∈ db.conversations := List.mem_of_find?_eq_some hfind
  obtain ⟨md, hmd⟩ := decodeMetadata_wf (hwf.2 conv hconv_mem)
  have hmsgs_wf : ∀ m ∈ sortMsgs (db.messages.filter (fun m => m.session_id = sid)),
      contentWF m.content = true := by
    intro m hm
    have hmem : m ∈ db.messages.filter (fun m => m.session_id = sid) :=
      (List.Perm.mem_iff (List.perm_insertionSort msgLe _)).mp hm
    exact hwf.1 m (List.mem_filter.mp hmem).1
  obtain ⟨outs, houts, hfa⟩ := mapM_decodeMsg _ hmsgs_wf
  refine ⟨⟨conv.session_id, conv.account_id, conv.created_at, now, md, outs⟩,
    ?_, rfl, rfl, rfl, rfl, by simp [hmd], hfa⟩
  simp only [getConversationF, hfind, hmd, houts]
  rfl

/-- Any raised statement inside `getConversation` is caught and turned
into `null` with the state unchanged. -/
theorem getConvF_fault_unchanged (db : DB) (now : Int) (sid : String)
    (i : Fin 3) : getConversationF db now sid (some i) = (db, none) := by
  fin_cases i
  · simp [getConversationF]
  · cases hf : db.conversations.find? (fun c => c.session_id = sid) with
    | none => simp [getConversationF, hf]
    | some conv => simp [getConversationF, hf]
  · cases hf : db.conversations.find? (fun c => c.session_id = sid) with
    | none => simp [getConversationF, hf]
    | some conv => simp [getConversationF, hf]

/-- The missing-conversation path of `getConversation` returns `null`
and leaves the state unchanged, whatever the fault point. -/
theorem getConvF_missing (db : DB) (now : Int) (sid : String)
    (fault : Option (Fin 3))
    (hnone : db.conversations.find? (fun c => c.session_id = sid) = none) :
    getConversationF db now sid fault = (db, none) := by
  cases fault with
  | none => simp [getConversationF, hnone]
  | some i => exact getConvF_fault_unchanged db now sid i

/-- Claim C7.  For an existing session id, `getConversation` returns the
conversation together with all of its messages in ascending timestamp
order with contents decoded to their original structured values, and as
a side effect sets the row to `last_accessed_at = now`; for a missing
session id it returns `null` and leaves the state unchanged. -/
theorem getConversation_spec (db : DB) (now : Int) (sid : String)
    (hwf : WFdb db) :
    (db.conversations.find? (fun c => c.session_id = sid) = none →
      getConversation db now sid = (db, none)) ∧
    (∀ conv, db.conversations.find? (fun c => c.session_id = sid) = some conv →
      ∃ res : ConvOut,
        getConversation db now sid =
          ({ db with conversations := db.conversations.map (fun c =>
              if c.session_id = sid then { c with last_accessed_at := now } else c) },
           some res) ∧
        res.session_id = conv.session_id ∧
        res.account_id = conv.account_id ∧
        res.created_at = conv.created_at ∧
        res.last_accessed_at = now ∧
        List.Forall₂ MsgMatches
          (sortMsgs (db.messages.filter (fun m => m.session_id = sid)))
          res.messages ∧
        List.Pairwise (fun a b : Int => a ≤ b)
          (res.messages.map MsgOut.timestamp) ∧
        (sortMsgs (db.messages.filter (fun m => m.session_id = sid))).Perm
          (db.messages.filter (fun m => m.session_id = sid))) := by
  constructor
  · intro hnone
    exact getConvF_missing db now sid none hnone
  · intro conv hfind
    obtain ⟨res, heq, h1, h2, h3, h4, _, hfa⟩ :=
      getConv_found_aux db now sid conv hwf hfind
    refine ⟨res, heq, h1, h2, h3, h4, hfa, ?_, List.perm_insertionSort msgLe _⟩
    have hsorted : List.Sorted msgLe
        (sortMsgs (db.messages.filter (fun m => m.session_id = sid))) :=
      List.sorted_insertionSort msgLe _
    rw [forall₂_msg_timestamps hfa]
    exact List.pairwise_map.mpr hsorted

/-- Witness for C7 at a concrete store. -/
theorem getConversation_spec_witness :
    WFdb sampleDB ∧
    ((sampleDB.conversations.find? (fun c => c.session_id = "s1") = none →
      getConversation sampleDB 300 "s1" = (sampleDB, none)) ∧
    (∀ conv, sampleDB.conversations.find?
        (fun c => c.session_id = "s1") = some conv →
      ∃ res : ConvOut,
        getConversation sampleDB 300 "s1" =
          ({ sampleDB with conversations := sampleDB.conversations.map (fun c =>
              if c.session_id = "s1" then { c with last_accessed_at := 300 } else c) },
           some res) ∧
        res.session_id = conv.session_id ∧
        res.account_id = conv.account_id ∧
        res.created_at = conv.created_at ∧
        res.last_accessed_at = 300 ∧
        List.Forall₂ MsgMatches
          (sortMsgs (sampleDB.messages.filter (fun m => m.session_id = "s1")))
          res.messages ∧
        List.Pairwise (fun a b : Int => a ≤ b)
          (res.messages.map MsgOut.timestamp) ∧
        (sortMsgs (sampleDB.messages.filter (fun m => m.session_id = "s1"))).Perm
          (sampleDB.messages.filter (fun m => m.session_id = "s1")))) :=
  ⟨by decide, getConversation_spec sampleDB 300 "s1" (by decide)⟩

/-- Claim C10.  `getConversation` returns `null` exactly when the
conversation is missing or a statement raised, the two cases produce the
same observable `null`, and in both the raised-statement case and the
missing case the state is left unchanged. -/
theorem getConversation_null_iff (db : DB) (now : Int) (sid : String)
    (fault : Option (Fin 3)) (hwf : WFdb db) :
    ((getConversationF db now sid fault).2 = none ↔
      (db.conversations.find? (fun c => c.session_id = sid) = none ∨
        ¬ fault = none)) ∧
    (¬ fault = none → getConversationF db now sid fault = (db, none)) ∧
    (db.conversations.find? (fun c => c.session_id = sid) = none →
      getConversationF db now sid fault = (db, none)) := by
  refine ⟨?_, ?_, fun hnone => getConvF_missing db now sid fault hnone⟩
  · cases fault with
    | some i =>
      rw [getConvF_fault_unchanged db now sid i]
      simp
    | none =>
      cases hf : db.conversations.find? (fun c => c.session_id = sid) with
      | none =>
        rw [getConvF_missing db now sid none hf]
        simp
      | some conv =>
        obtain ⟨res, heq, -⟩ := getConv_found_aux db now sid conv hwf hf
        rw [show getConversationF db now sid none
            = getConversation db now sid from rfl] at heq
        rw [show getConversationF db now sid none
            = getConversation db now sid from rfl, heq]
        simp
  · intro hne
    cases fault with
    | none => exact absurd rfl hne
    | some i => exact getConvF_fault_unchanged db now sid i

/-! ## listConversations -/

theorem mapM_summarize (l : List ConvRow)
    (h : ∀ c ∈ l, metadataWF c.metadata = true) :
    ∃ outs, l.mapM summarize = some outs ∧ List.Forall₂ SummMatches l outs := by
  induction l with
  | nil => exact ⟨[], rfl, List.Forall₂.nil⟩
  | cons c t ih =>
    obtain ⟨md, hmd⟩ := decodeMetadata_wf (h c (List.mem_cons_self c t))
    obtain ⟨outs, houts, hfa⟩ := ih (fun x hx => h x (List.mem_cons_of_mem c hx))
    have hsm : summarize c
        = some ⟨c.session_id, c.created_at, c.last_accessed_at, md⟩ := by
      simp [summarize, hmd]
    refine ⟨⟨c.session_id, c.created_at, c.last_accessed_at, md⟩ :: outs, ?_, ?_⟩
    · rw [List.mapM_cons, hsm, houts]
      rfl
    · exact List.Forall₂.cons ⟨rfl, rfl, rfl⟩ hfa

theorem mapM_append_some {α β : Type} (f : α → Option β) {l1 l2 : List α}
    {o1 o2 : List β} (h1 : l1.mapM f = some o1) (h2 : l2.mapM f = some o2) :
    (l1 ++ l2).mapM f = some (o1 ++ o2) := by
  rw [List.mapM_append, h1, h2]
  rfl

theorem forall₂_summ_last {l : List ConvRow} {l' : List ConvSummary}
    (h : List.Forall₂ SummMatches l l') :
    l'.map ConvSummary.last_accessed_at = l.map ConvRow.last_accessed_at := by
  induction h with
  | nil => rfl
  | cons hr _ ih => simp [ih, hr.2.2]

theorem listed_rows_sub (db : DB) (aid : String) (L O : Nat) :
    ∀ c ∈ ((sortConvsDesc (db.conversations.filter
        (fun c => c.account_id = aid))).drop O).take L,
      c ∈ db.conversations ∧ c.account_id = aid := by
  intro c hc
  have hsorted : c ∈ sortConvsDesc (db.conversations.filter
      (fun c => c.account_id = aid)) :=
    ((List.take_sublist _ _).trans (List.drop_sublist _ _)).subset hc
  have hfilter : c ∈ db.conversations.filter (fun c => c.account_id = aid) :=
    (List.Perm.mem_iff (List.perm_insertionSort convGe _)).mp hsorted
  have := List.mem_filter.mp hfilter
  exact ⟨this.1, by simpa using this.2⟩

/-- Claim C8.  `listConversations` never mutates the state, returns only
the account's rows consistent with a single descending sort by
`last_accessed_at`, and pages compose: page(L,0) followed by page(L,L)
is exactly page(2L,0). -/
theorem listConversations_spec (db : DB) (aid : String) (L O : Nat)
    (hwf : WFdb db) :
    (listConversationsF db aid L O false).1 = db ∧
    (∀ o ∈ (listConversationsF db aid L O false).2, ∃ c ∈ db.conversations,
      c.account_id = aid ∧ SummMatches c o) ∧
    List.Pairwise (fun a b : Int => b ≤ a)
      ((listConversationsF db aid L O false).2.map ConvSummary.last_accessed_at) ∧
    ((listConversationsF db aid L 0 false).2
        ++ (listConversationsF db aid L L false).2
      = (listConversationsF db aid (2 * L) 0 false).2) := by
  have hwfrows : ∀ (L O : Nat), ∀ c ∈ ((sortConvsDesc (db.conversations.filter
      (fun c => c.account_id = aid))).drop O).take L, metadataWF c.metadata = true := by
    intro L O c hc
    exact hwf.2 c (listed_rows_sub db aid L O c hc).1
  obtain ⟨out, hout, hfa⟩ := mapM_summarize _ (hwfrows L O)
  have hlist : listConversationsF db aid L O false = (db, out) := by
    simp only [listConversationsF, Bool.false_eq_true, if_false, hout]
  refine ⟨by rw [hlist], ?_, ?_, ?_⟩
  · rw [hlist]
    intro o ho
    obtain ⟨c, hcrow, hR⟩ := forall₂_mem_right hfa o ho
    obtain ⟨hmem, hacct⟩ := listed_rows_sub db aid L O c hcrow
    exact ⟨c, hmem, hacct, hR⟩
  · rw [hlist]
    have hsorted : List.Sorted convGe (sortConvsDesc (db.conversations.filter
        (fun c => c.account_id = aid))) :=
      List.sorted_insertionSort convGe _
    have hrows : List.Pairwise convGe (((sortConvsDesc (db.conversations.filter
        (fun c => c.account_id = aid))).drop O).take L) :=
      hsorted.sublist ((List.take_sublist _ _).trans (List.drop_sublist _ _))
    rw [forall₂_summ_last hfa]
    exact List.pairwise_map.mpr hrows
  · obtain ⟨out1, hout1, _⟩ := mapM_summarize _ (hwfrows L 0)
    obtain ⟨out2, hout2, _⟩ := mapM_summarize _ (hwfrows L L)
    have hsplit : ((sortConvsDesc (db.conversations.filter
          (fun c => c.account_id = aid))).drop 0).take L
        ++ ((sortConvsDesc (db.conversations.filter
          (fun c => c.account_id = aid))).drop L).take L
        = ((sortConvsDesc (db.conversations.filter
          (fun c => c.account_id = aid))).drop 0).take (2 * L) := by
      rw [List.drop_zero, two_mul, List.take_add]
    have hbig : (((sortConvsDesc (db.conversations.filter
        (fun c => c.account_id = aid))).drop 0).take (2 * L)).mapM summarize
        = some (out1 ++ out2) := by
      rw [← hsplit]
      exact mapM_append_some summarize hout1 hout2
    have h1 : listConversationsF db aid L 0 false = (db, out1) := by
      simp only [listConversationsF, Bool.false_eq_true, if_false, hout1]
    have h2 : listConversationsF db aid L L false = (db, out2) := by
      simp only [listConversationsF, Bool.false_eq_true, if_false, hout2]
    have h3 : listConversationsF db aid (2 * L) 0 false = (db, out1 ++ out2) := by
      simp only [listConversationsF, Bool.false_eq_true, if_false, hbig]
    rw [h1, h2, h3]

/-- Witness for C8 at a concrete store. -/
theorem listConversations_spec_witness :
    WFdb sampleDB ∧
    ((listConversationsF sampleDB "a1" 1 0 false).1 = sampleDB ∧
    (∀ o ∈ (listConversationsF sampleDB "a1" 1 0 false).2,
      ∃ c ∈ sampleDB.conversations, c.account_id = "a1" ∧ SummMatches c o) ∧
    List.Pairwise (fun a b : Int => b ≤ a)
      ((listConversationsF sampleDB "a1" 1 0 false).2.map
        ConvSummary.last_accessed_at) ∧
    ((listConversationsF sampleDB "a1" 1 0 false).2
        ++ (listConversationsF sampleDB "a1" 1 1 false).2
      = (listConversationsF sampleDB "a1" (2 * 1) 0 false).2)) :=
  ⟨by decide, listConversations_spec sampleDB "a1" 1 0 (by decide)⟩

/-! ## The /query handler -/

theorem lookupField_cons (f : String × JsonValue)
    (t : List (String × JsonValue)) (k : String) :
    lookupField (f :: t) k = if f.1 = k then some f.2 else lookupField t k := by
  unfold lookupField
  rw [List.find?_cons]
  by_cases h : f.1 = k
  · simp [h]
  · simp [h]

theorem lookup_map_replace (fs : List (String × JsonValue)) (key : String)
    (v : JsonValue) (h : fs.any (fun f => f.1 = key) = true) :
    lookupField (fs.map (fun f => if f.1 = key then (key, v) else f)) key
      = some v := by
  induction fs with
  | nil => simp at h
  | cons f t ih =>
    rw [List.map_cons]
    by_cases hf : f.1 = key
    · rw [if_pos hf, lookupField_cons, if_pos rfl]
    · have ht : t.any (fun f => f.1 = key) = true := by
        simpa [List.any_cons, hf] using h
      rw [if_neg hf, lookupField_cons, if_neg hf]
      exact ih ht

theorem lookup_append_new (fs : List (String × JsonValue)) (key : String)
    (v : JsonValue) (h : fs.any (fun f => f.1 = key) = false) :
    lookupField (fs ++ [(key, v)]) key = some v := by
  induction fs with
  | nil =>
    rw [List.nil_append, lookupField_cons, if_pos rfl]
  | cons f t ih =>
    have hsplit : ¬ f.1 = key ∧ t.any (fun f => f.1 = key) = false := by
      simpa [List.any_cons] using h
    rw [List.cons_append, lookupField_cons, if_neg hsplit.1]
    exact ih hsplit.2

theorem lookupField_setField_self (fs : List (String × JsonValue))
    (key : String) (v : JsonValue) :
    lookupField (setField fs key v) key = some v := by
  unfold setField
  by_cases h : fs.any (fun f => f.1 = key) = true
  · rw [if_pos h]
    exact lookup_map_replace fs key v h
  · rw [if_neg h]
    refine lookup_append_new fs key v ?_
    cases hx : fs.any (fun f => f.1 = key) with
    | false => rfl
    | true => exact absurd hx h

theorem lookup_map_other (fs : List (String × JsonValue)) (key k2 : String)
    (v : JsonValue) (hne : ¬ k2 = key) :
    lookupField (fs.map (fun f => if f.1 = key then (key, v) else f)) k2
      = lookupField fs k2 := by
  have hnew : ¬ ((key, v) : String × JsonValue).1 = k2 := fun hk => hne hk.symm
  induction fs with
  | nil => rfl
  | cons f t ih =>
    rw [List.map_cons]
    by_cases hf : f.1 = key
    · have hk2f : ¬ f.1 = k2 := by
        rw [hf]
        exact fun hk => hne hk.symm
      rw [if_pos hf, lookupField_cons, if_neg hnew, lookupField_cons, if_neg hk2f]
      exact ih
    · rw [if_neg hf, lookupField_cons, lookupField_cons]
      by_cases hk : f.1 = k2
      · rw [if_pos hk, if_pos hk]
      · rw [if_neg hk, if_neg hk]
        exact ih

theorem lookup_append_other (fs : List (String × JsonValue)) (key k2 : String)
    (v : JsonValue) (hne : ¬ k2 = key) :
    lookupField (fs ++ [(key, v)]) k2 = lookupField fs k2 := by
  have hnew : ¬ ((key, v) : String × JsonValue).1 = k2 := fun hk => hne hk.symm
  induction fs with
  | nil =>
    rw [List.nil_append, lookupField_cons, if_neg hnew]
  | cons f t ih =>
    rw [List.cons_append, lookupField_cons, lookupField_cons]
    by_cases hk : f.1 = k2
    · rw [if_pos hk, if_pos hk]
    · rw [if_neg hk, if_neg hk]
      exact ih

theorem lookupField_setField_other (fs : List (String × JsonValue))
    (key k2 : String) (v : JsonValue) (hne : ¬ k2 = key) :
    lookupField (setField fs key v) k2 = lookupField fs k2 := by
  unfold setField
  by_cases h : fs.any (fun f => f.1 = key) = true
  · rw [if_pos h]
    exact lookup_map_other fs key k2 v hne
  · rw [if_neg h]
    exact lookup_append_other fs key k2 v hne

/-- Claim C9.  When generation succeeded, the query handler's response
is the generation result with the session id attached, for every
storage-fault outcome: a storage failure during append never changes
the response. -/
theorem handleQuery_spec (db : DB) (now : Int) (aid : String)
    (sidOpt : Option String) (freshId prompt : String)
    (genResult : List (String × JsonValue)) :
    (∀ f, (handleQuery db now aid sidOpt freshId prompt genResult f).2
        = setField genResult "session_id" (.jstr (sidOpt.getD freshId))) ∧
    (∀ f, lookupField
        (handleQuery db now aid sidOpt freshId prompt genResult f).2 "session_id"
      = some (.jstr (sidOpt.getD freshId))) ∧
    (∀ k v, ¬ k = "session_id" → lookupField genResult k = some v →
      ∀ f, lookupField
          (handleQuery db now aid sidOpt freshId prompt genResult f).2 k
        = some v) := by
  have hresp : ∀ f, (handleQuery db now aid sidOpt freshId prompt genResult f).2
      = setField genResult "session_id" (.jstr (sidOpt.getD freshId)) :=
    fun _ => rfl
  refine ⟨hresp, ?_, ?_⟩
  · intro f
    rw [hresp f]
    exact lookupField_setField_self _ _ _
  · intro k v hk hv f
    rw [hresp f, lookupField_setField_other _ _ _ _ hk]
    exact hv

/-- Witness for C9: with a concrete generation result and a faulting
store call, the response still carries the result and the session id. -/
theorem handleQuery_spec_witness :
    lookupField (handleQuery emptyDB 100 "a1" none "sess-1" "Hi"
        [("response", .jstr "Hello")] (some 0)).2 "session_id"
      = some (.jstr "sess-1") ∧
    ¬ "response" = "session_id" ∧
    lookupField (handleQuery emptyDB 100 "a1" none "sess-1" "Hi"
        [("response", .jstr "Hello")] (some 0)).2 "response"
      = some (.jstr "Hello") :=
  ⟨(handleQuery_spec emptyDB 100 "a1" none "sess-1" "Hi"
      [("response", .jstr "Hello")]).2.1 (some 0),
   by decide,
   (handleQuery_spec emptyDB 100 "a1" none "sess-1" "Hi"
      [("response", .jstr "Hello")]).2.2 "response" (.jstr "Hello")
     (by decide) rfl (some 0)⟩

/-- Witness for C10 at a concrete store and fault point. -/
theorem getConversation_null_iff_witness :
    WFdb sampleDB ∧
    (((getConversationF sampleDB 300 "s1" (some 2)).2 = none ↔
      (sampleDB.conversations.find? (fun c => c.session_id = "s1") = none ∨
        ¬ (some 2 : Option (Fin 3)) = none)) ∧
    (¬ (some 2 : Option (Fin 3)) = none →
      getConversationF sampleDB 300 "s1" (some 2) = (sampleDB, none)) ∧
    (sampleDB.conversations.find? (fun c => c.session_id = "s1") = none →
      getConversationF sampleDB 300 "s1" (some 2) = (sampleDB, none))) :=
  ⟨by decide, getConversation_null_iff sampleDB 300 "s1" (some 2) (by decide)⟩

end AgentStore
